import Mathlib

/-!
Verification of the `inspect` command family of the darch repository
(`src/commands/inspect/inspect.go`).

The program keeps a set of image definitions, each with a name, a single
parent reference (`Inherits`) and a flag telling whether that parent is
external to the set (`InheritsExternal`).  Three traversals are provided:
`parents` (ancestry chain walking), `children` (direct descendants) and
`tree` (a forest rooted at the distinct external parent labels).

The Go map `map[string]images.ImageDefinition` is embedded as an
association list `List (String × ImageDefinition)`; Go map iteration
order is unspecified, which the list order stands in for, and all the
properties proved below are insensitive to that order.  Printing is
modelled by returning the list of printed lines; a Go `error` return is
modelled with an explicit error type.  The possibly non-terminating
chain-walking loop of `parents` is modelled with explicit fuel: the
result `none` means the loop has not finished within the given number of
iterations, so `none` for every fuel is divergence.
-/

namespace Darch

/-- `images.ImageDefinition`, restricted to the fields the inspect
command reads: `Name`, `Inherits` and `InheritsExternal`. -/
structure ImageDefinition where
  Name : String
  Inherits : String
  InheritsExternal : Bool
deriving Repr, DecidableEq

/-- The zero value of the Go struct `images.ImageDefinition`: indexing a
Go map at a missing key yields this value. -/
def zeroDef : ImageDefinition := ⟨"", "", false⟩

/-- The in-memory definition set: the Go map from name to record,
embedded as an association list. -/
abbrev DefinitionSet := List (String × ImageDefinition)

/-- Go map indexing `imageDefinitions[name]` with the `ok` flag:
`some` of the stored record, or `none` when the key is absent. -/
def lookupDef (defs : DefinitionSet) (name : String) : Option ImageDefinition :=
  (defs.find? (fun p => p.1 == name)).map Prod.snd

/-- Errors of the command layer.  In Go these are `fmt.Errorf` values;
the constructors record the spec's taxonomy together with the message. -/
inductive CmdError where
  | validationError (msg : String)
  | notFoundError (name : String)
  | loadError (msg : String)
deriving Repr, DecidableEq

/-- Modelled from the spec: `utils.Reverse` is not under `src/`; per the
spec, `reverseOrder` reverses the sequence end-to-end. -/
def reverseNames (l : List String) : List String := l.reverse

/-- Modelled from the spec: `utils.RemoveDuplicates` is not under
`src/`; per the spec the root labels are deduplicated, keeping the
order of first appearance. -/
def removeDuplicates : List String → List String
  | [] => []
  | x :: xs => x :: (removeDuplicates xs).filter (fun y => y ≠ x)

/-- Go `current = imageDefinitions[current.Inherits]`: one step of the
parent-chain walk, yielding the Go zero value when the key is absent. -/
def step (defs : DefinitionSet) (r : ImageDefinition) : ImageDefinition :=
  (lookupDef defs r.Inherits).getD zeroDef

/-- The record reached after `n` parent-chain steps from `r`. -/
def visit (defs : DefinitionSet) (r : ImageDefinition) : Nat → ImageDefinition
  | 0 => r
  | n + 1 => step defs (visit defs r n)

/-- The `for finished != true` loop of `parents` (inspect.go lines
150-163), with explicit fuel.  `none` means the loop has not finished
within `fuel` iterations.  On each iteration: if the current record's
parent is external, append the parent reference (unless
`excludeExternal`) and stop; otherwise move to the record stored under
`current.Inherits` and append that record's `Name`. -/
def parentsLoop (defs : DefinitionSet) (excludeExternal : Bool) :
    Nat → ImageDefinition → List String → Option (List String)
  | 0, _, _ => none
  | fuel + 1, current, results =>
    if current.InheritsExternal then
      some (if excludeExternal then results else results ++ [current.Inherits])
    else
      parentsLoop defs excludeExternal fuel (step defs current)
        (results ++ [(step defs current).Name])

/-- The `parents` command action (inspect.go lines 126-174).  The loader
result (`images.BuildAllDefinitions` after `utils.ExpandPath`) is passed
in as `loaded`.  The returned `some (.ok lines)` carries the printed
lines; `some (.error e)` is the fatal error (nothing printed); `none`
means the chain walk has not finished within `fuel` iterations. -/
def parents (fuel : Nat) (name imagesDir : String)
    (loaded : Except CmdError DefinitionSet)
    (excludeExternal reverse : Bool) : Option (Except CmdError (List String)) :=
  if name.length = 0 then
    some (Except.error (CmdError.validationError "Name is required"))
  else if imagesDir.length = 0 then
    some (Except.error (CmdError.validationError "Images directory is required"))
  else
    match loaded with
    | Except.error e => some (Except.error e)
    | Except.ok defs =>
      match lookupDef defs name with
      | none => some (Except.error (CmdError.notFoundError name))
      | some current =>
        match parentsLoop defs excludeExternal fuel current [] with
        | none => none
        | some results =>
          some (Except.ok (if reverse then reverseNames results else results))

/-- Descending (reverse lexicographic) sort:
Go `sort.Sort(sort.Reverse(sort.StringSlice(results)))`. -/
def sortDescending (l : List String) : List String :=
  l.mergeSort (fun a b => decide (b ≤ a))

/-- The `children` command action (inspect.go lines 176-216): collect the
name of every record whose `Inherits` equals the looked-up record's
`Name`, optionally sorting the result descending. -/
def children (name imagesDir : String) (loaded : Except CmdError DefinitionSet)
    (reverse : Bool) : Except CmdError (List String) :=
  if name.length = 0 then
    Except.error (CmdError.validationError "Name is required")
  else if imagesDir.length = 0 then
    Except.error (CmdError.validationError "Images directory is required")
  else
    match loaded with
    | Except.error e => Except.error e
    | Except.ok defs =>
      match lookupDef defs name with
      | none => Except.error (CmdError.notFoundError name)
      | some current =>
        let results :=
          (defs.filter (fun p => p.2.Inherits == current.Name)).map (fun p => p.2.Name)
        Except.ok (if reverse then sortDescending results else results)

/-- `gotree.GTStructure`: a node label and its child nodes. -/
structure GTStructure where
  Name : String
  Items : List GTStructure
deriving Repr

/-- `buildTreeRecursively` (inspect.go lines 218-234), with fuel because
the Go recursion is unbounded on cyclic input: one child node per record
whose `Inherits` equals the parent's `Name`, recursively assembled. -/
def buildTreeRecursively (defs : DefinitionSet) :
    Nat → ImageDefinition → List GTStructure
  | 0, _ => []
  | fuel + 1, parentDefinition =>
    (defs.filter (fun p => p.2.Inherits == parentDefinition.Name)).map
      (fun p => GTStructure.mk p.2.Name (buildTreeRecursively defs fuel p.2))

/-- The `tree` command action (inspect.go lines 236-281): collect the
`Inherits` labels of records with an external parent, deduplicate them
into root labels, and under each root place one node per record with an
external parent matching that label, with its subtree built recursively.
The returned structure is the Go `rootNode` (zero-valued name, the forest
in `Items`). -/
def tree (imagesDir : String) (loaded : Except CmdError DefinitionSet)
    (fuel : Nat) : Except CmdError GTStructure :=
  if imagesDir.length = 0 then
    Except.error (CmdError.validationError "Images directory is required")
  else
    match loaded with
    | Except.error e => Except.error e
    | Except.ok defs =>
      let externalImages :=
        removeDuplicates
          ((defs.filter (fun p => p.2.InheritsExternal)).map (fun p => p.2.Inherits))
      Except.ok
        (GTStructure.mk ""
          (externalImages.map (fun externalImage =>
            GTStructure.mk externalImage
              ((defs.filter
                  (fun p => p.2.InheritsExternal && p.2.Inherits == externalImage)).map
                (fun p => GTStructure.mk p.2.Name (buildTreeRecursively defs fuel p.2))))))

/-- The `inspect` command action (inspect.go lines 283-299).  The loader
result of `images.BuildDefinition` is the Go pair (record, error); the
function prints `imageDefinition.Name` and then returns `err`.  The first
component of the result is the list of printed lines, the second the
returned error. -/
def inspect (name imagesDir : String)
    (loaded : ImageDefinition × Option CmdError) :
    List String × Option CmdError :=
  if name.length = 0 then
    ([], some (CmdError.validationError "Name is required"))
  else if imagesDir.length = 0 then
    ([], some (CmdError.validationError "Images directory is required"))
  else
    ([loaded.1.Name], loaded.2)

/-! ### Properties of the definition set and of the parent chain -/

/-- Every non-external parent reference resolves to a record in the set
(the spec's well-formedness invariant on `DefinitionSet`). -/
def Resolvable (defs : DefinitionSet) : Prop :=
  ∀ p ∈ defs, p.2.InheritsExternal = false → (lookupDef defs p.2.Inherits).isSome

/-- The set is keyed by record name: the record stored under a key bears
that key as its `Name` (the spec's "mapping from name to record"). -/
def WellKeyed (defs : DefinitionSet) : Prop :=
  ∀ p ∈ defs, p.2.Name = p.1

/-- An external parent reference is an identifier outside the set (the
spec: `isExternalParent` is true iff `parentRef` denotes an identifier
outside the set). -/
def ExternalRefsOutside (defs : DefinitionSet) : Prop :=
  ∀ p ∈ defs, p.2.InheritsExternal = true → lookupDef defs p.2.Inherits = none

/-- The parent chain from `start` revisits a record before reaching an
external parent. -/
def CyclicFrom (defs : DefinitionSet) (start : ImageDefinition) : Prop :=
  ∃ i j, i < j ∧ visit defs start i = visit defs start j ∧
    ∀ t, t < j → (visit defs start t).InheritsExternal = false

/-- The parent chain from `start` never revisits a record before
reaching an external parent (acyclicity, seen from `start`). -/
def AcyclicFrom (defs : DefinitionSet) (start : ImageDefinition) : Prop :=
  ∀ i j, i < j → (∀ t, t < j → (visit defs start t).InheritsExternal = false) →
    visit defs start i ≠ visit defs start j

/-- `start` has depth `d` from its external root: the chain reaches its
first record with an external parent after `d - 1` steps, so the
ancestry inclusive of the external root label has `d` entries. -/
def HasDepth (defs : DefinitionSet) (start : ImageDefinition) (d : Nat) : Prop :=
  ∃ k, d = k + 1 ∧ (visit defs start k).InheritsExternal = true ∧
    ∀ j, j < k → (visit defs start j).InheritsExternal = false

/-! ### Chain-walking lemmas -/

theorem visit_succ (defs : DefinitionSet) (r : ImageDefinition) (n : Nat) :
    visit defs r (n + 1) = visit defs (step defs r) n := by
  induction n with
  | zero => rfl
  | succ n ih =>
    show step defs (visit defs r (n + 1)) = step defs (visit defs (step defs r) n)
    rw [ih]

theorem visit_add (defs : DefinitionSet) (r : ImageDefinition) (a b : Nat) :
    visit defs r (a + b) = visit defs (visit defs r a) b := by
  induction b with
  | zero => rfl
  | succ b ih =>
    show step defs (visit defs r (a + b)) = step defs (visit defs (visit defs r a) b)
    rw [ih]

theorem lookupDef_mem {defs : DefinitionSet} {name : String} {v : ImageDefinition}
    (h : lookupDef defs name = some v) : v ∈ defs.map Prod.snd := by
  unfold lookupDef at h
  cases hf : defs.find? (fun p => p.1 == name) with
  | none => rw [hf] at h; simp at h
  | some p =>
    rw [hf] at h
    simp only [Option.map_some'] at h
    cases h
    exact List.mem_map_of_mem Prod.snd (List.mem_of_find?_eq_some hf)

theorem lookupDef_isSome_of_mem {defs : DefinitionSet} {k : String}
    {v : ImageDefinition} (h : (k, v) ∈ defs) : (lookupDef defs k).isSome := by
  have hf : (defs.find? (fun p => p.1 == k)).isSome :=
    List.find?_isSome.mpr ⟨(k, v), h, by simp⟩
  obtain ⟨p, hp⟩ := Option.isSome_iff_exists.mp hf
  simp [lookupDef, hp]

theorem lookupDef_name {defs : DefinitionSet} {name : String} {v : ImageDefinition}
    (hwell : WellKeyed defs) (h : lookupDef defs name = some v) : v.Name = name := by
  unfold lookupDef at h
  cases hf : defs.find? (fun p => p.1 == name) with
  | none => rw [hf] at h; simp at h
  | some q =>
    rw [hf] at h
    simp only [Option.map_some'] at h
    cases h
    have h1 : (q.1 == name) = true :=
      List.find?_some (p := fun r : String × ImageDefinition => r.1 == name) hf
    have h2 := hwell q (List.mem_of_find?_eq_some hf)
    rw [h2]
    exact eq_of_beq h1

theorem visit_mem (defs : DefinitionSet) (start : ImageDefinition)
    (hres : Resolvable defs) (hstart : start ∈ defs.map Prod.snd) :
    ∀ n, (∀ j, j < n → (visit defs start j).InheritsExternal = false) →
      visit defs start n ∈ defs.map Prod.snd := by
  intro n
  induction n with
  | zero => intro _; exact hstart
  | succ n ih =>
    intro h
    have hmem := ih (fun j hj => h j (Nat.lt_succ_of_lt hj))
    have hnext : (visit defs start n).InheritsExternal = false := h n (Nat.lt_succ_self n)
    obtain ⟨p, hp, hsnd⟩ := List.mem_map.mp hmem
    have hsome := hres p hp (by rw [hsnd]; exact hnext)
    obtain ⟨v, hv⟩ := Option.isSome_iff_exists.mp hsome
    have hstep : visit defs start (n + 1) = v := by
      show step defs (visit defs start n) = v
      rw [← hsnd]
      unfold step
      rw [hv]
      rfl
    rw [hstep]
    exact lookupDef_mem hv

/-! ### Behaviour of the `parents` loop -/

theorem parentsLoop_isSome (defs : DefinitionSet) (excl : Bool) :
    ∀ fuel current acc,
      (∃ k, k < fuel ∧ (visit defs current k).InheritsExternal = true) →
      (parentsLoop defs excl fuel current acc).isSome := by
  intro fuel
  induction fuel with
  | zero =>
    rintro current acc ⟨k, hk, _⟩
    omega
  | succ fuel ih =>
    rintro current acc ⟨k, hk, hext⟩
    cases hc : current.InheritsExternal with
    | true => simp [parentsLoop, hc]
    | false =>
      rw [parentsLoop]
      simp only [hc, Bool.false_eq_true, if_false]
      apply ih
      cases k with
      | zero => rw [show visit defs current 0 = current from rfl, hc] at hext; cases hext
      | succ k =>
        refine ⟨k, by omega, ?_⟩
        rw [← visit_succ]
        exact hext

theorem parentsLoop_spec (defs : DefinitionSet) :
    ∀ fuel current acc L,
      parentsLoop defs false fuel current acc = some L →
      ∃ k chain,
        k < fuel ∧ (visit defs current k).InheritsExternal = true ∧
        (∀ j, j < k → (visit defs current j).InheritsExternal = false) ∧
        chain.length = k ∧
        (∀ x ∈ chain, ∃ t, t < k ∧ x = (visit defs current (t + 1)).Name) ∧
        L = acc ++ chain ++ [(visit defs current k).Inherits] ∧
        parentsLoop defs true fuel current acc = some (acc ++ chain) := by
  intro fuel
  induction fuel with
  | zero => intro current acc L h; cases h
  | succ fuel ih =>
    intro current acc L h
    cases hc : current.InheritsExternal with
    | true =>
      rw [parentsLoop] at h
      simp only [hc, if_true] at h
      cases h
      refine ⟨0, [], by omega, hc, by omega, rfl, by simp, by simp [visit], ?_⟩
      rw [parentsLoop]
      simp [hc]
    | false =>
      rw [parentsLoop] at h
      simp only [hc, Bool.false_eq_true, if_false] at h
      obtain ⟨k, chain, hk, hext, hmin, hlen, hnames, hL, htrue⟩ := ih _ _ _ h
      refine ⟨k + 1, (step defs current).Name :: chain, by omega, ?_, ?_, by simp [hlen], ?_, ?_, ?_⟩
      · rw [visit_succ]; exact hext
      · intro j hj
        cases j with
        | zero => exact hc
        | succ j => rw [visit_succ]; exact hmin j (by omega)
      · intro x hx
        cases hx with
        | head => exact ⟨0, by omega, rfl⟩
        | tail _ hx =>
          obtain ⟨t, ht, hxt⟩ := hnames x hx
          refine ⟨t + 1, by omega, ?_⟩
          rw [visit_succ]
          exact hxt
      · rw [hL, visit_succ]
        simp
      · rw [parentsLoop]
        simp only [hc, Bool.false_eq_true, if_false]
        rw [htrue]
        simp

theorem parentsLoop_none (defs : DefinitionSet) (excl : Bool) :
    ∀ fuel current acc,
      (∀ k, (visit defs current k).InheritsExternal = false) →
      parentsLoop defs excl fuel current acc = none := by
  intro fuel
  induction fuel with
  | zero => intros; rfl
  | succ fuel ih =>
    intro current acc h
    have h0 : current.InheritsExternal = false := h 0
    rw [parentsLoop]
    simp only [h0, Bool.false_eq_true, if_false]
    apply ih
    intro k
    rw [← visit_succ]
    exact h (k + 1)

/-! ### Cyclic chains never reach an external parent -/

theorem visit_periodic (defs : DefinitionSet) (start : ImageDefinition)
    {i j : Nat} (hij : i < j)
    (heq : visit defs start i = visit defs start j) :
    ∀ m, i ≤ m → visit defs start (m + (j - i)) = visit defs start m := by
  intro m him
  have h1 : m + (j - i) = j + (m - i) := by omega
  have h2 : m = i + (m - i) := by omega
  rw [h1, visit_add, ← heq, ← visit_add, ← h2]

theorem not_external_of_cyclic (defs : DefinitionSet) (start : ImageDefinition)
    (hcyc : CyclicFrom defs start) :
    ∀ k, (visit defs start k).InheritsExternal = false := by
  obtain ⟨i, j, hij, heq, hpre⟩ := hcyc
  intro k
  induction k using Nat.strong_induction_on with
  | _ k ih =>
    by_cases hk : k < j
    · exact hpre k hk
    · push_neg at hk
      have hper := visit_periodic defs start hij heq (k - (j - i)) (by omega)
      have hsum : k - (j - i) + (j - i) = k := by omega
      rw [hsum] at hper
      rw [hper]
      exact ih (k - (j - i)) (by omega)

/-! ### Acyclic resolvable chains reach an external parent within the
set size (pigeonhole) -/

theorem exists_external (defs : DefinitionSet) (start : ImageDefinition)
    (hres : Resolvable defs) (hstart : start ∈ defs.map Prod.snd)
    (hacyc : AcyclicFrom defs start) :
    ∃ k, k < defs.length ∧ (visit defs start k).InheritsExternal = true := by
  by_contra hno
  push_neg at hno
  have hnoext : ∀ k, k < defs.length → (visit defs start k).InheritsExternal = false := by
    intro k hk
    cases h : (visit defs start k).InheritsExternal with
    | false => rfl
    | true => exact absurd h (hno k hk)
  have hsub : ∀ x ∈ (List.range (defs.length + 1)).map (visit defs start),
      x ∈ defs.map Prod.snd := by
    intro x hx
    obtain ⟨n, hn, hxn⟩ := List.mem_map.mp hx
    rw [List.mem_range] at hn
    subst hxn
    exact visit_mem defs start hres hstart n (fun t ht => hnoext t (by omega))
  have hnodup : ((List.range (defs.length + 1)).map (visit defs start)).Nodup := by
    apply List.Nodup.map_on ?_ (List.nodup_range _)
    intro a ha b hb hab
    rw [List.mem_range] at ha hb
    by_contra hne
    rcases Nat.lt_or_ge a b with h | h
    · exact hacyc a b h (fun t ht => hnoext t (by omega)) hab
    · have h2 : b < a := by omega
      exact hacyc b a h2 (fun t ht => hnoext t (by omega)) hab.symm
  have hle := List.Subperm.length_le (List.subperm_of_subset hnodup hsub)
  simp at hle

/-! ### Deduplication lemmas -/

theorem mem_removeDuplicates (l : List String) (x : String) :
    x ∈ removeDuplicates l ↔ x ∈ l := by
  induction l with
  | nil => simp [removeDuplicates]
  | cons a l ih =>
    by_cases hxa : x = a
    · simp [removeDuplicates, hxa]
    · simp [removeDuplicates, List.mem_filter, hxa, ih]

theorem nodup_removeDuplicates (l : List String) : (removeDuplicates l).Nodup := by
  induction l with
  | nil => simp [removeDuplicates]
  | cons a l ih =>
    rw [removeDuplicates, List.nodup_cons]
    constructor
    · intro h
      have := List.mem_filter.mp h
      simp at this
    · exact List.Nodup.filter _ ih

theorem length_removeDuplicates (l : List String) :
    (removeDuplicates l).length = l.toFinset.card := by
  have h1 : (removeDuplicates l).toFinset = l.toFinset := by
    ext x
    simp [List.mem_toFinset, mem_removeDuplicates]
  rw [← List.toFinset_card_of_nodup (nodup_removeDuplicates l), h1]

/-! ### The success branch of `children` -/

theorem children_eq (defs : DefinitionSet) (name imagesDir : String)
    (current : ImageDefinition) (rev : Bool)
    (hname : name.length ≠ 0) (hdir : imagesDir.length ≠ 0)
    (hcur : lookupDef defs name = some current) :
    children name imagesDir (Except.ok defs) rev =
      Except.ok
        (if rev then
          sortDescending
            ((defs.filter (fun p => p.2.Inherits == current.Name)).map (fun p => p.2.Name))
        else
          (defs.filter (fun p => p.2.Inherits == current.Name)).map (fun p => p.2.Name)) := by
  rw [children]
  rw [if_neg hname, if_neg hdir, hcur]

theorem mem_children (defs : DefinitionSet) (name : String)
    (current : ImageDefinition) (rev : Bool) (x : String)
    (hwell : WellKeyed defs) (hcur : lookupDef defs name = some current) :
    (x ∈ (if rev then
          sortDescending
            ((defs.filter (fun p => p.2.Inherits == current.Name)).map (fun p => p.2.Name))
        else
          (defs.filter (fun p => p.2.Inherits == current.Name)).map (fun p => p.2.Name))) ↔
      ∃ p ∈ defs, p.2.Inherits = name ∧ p.2.Name = x := by
  have hmem : (x ∈ (if rev then
      sortDescending
        ((defs.filter (fun p => p.2.Inherits == current.Name)).map (fun p => p.2.Name))
    else
      (defs.filter (fun p => p.2.Inherits == current.Name)).map (fun p => p.2.Name))) ↔
      x ∈ (defs.filter (fun p => p.2.Inherits == current.Name)).map (fun p => p.2.Name) := by
    cases rev with
    | false => rw [if_neg (by simp)]
    | true =>
      rw [if_pos rfl]
      exact List.mem_mergeSort
  rw [hmem, lookupDef_name hwell hcur]
  simp only [List.mem_map, List.mem_filter, beq_iff_eq]
  constructor
  · rintro ⟨p, ⟨hp, hinh⟩, hnm⟩
    exact ⟨p, hp, hinh, hnm⟩
  · rintro ⟨p, hp, hinh, hnm⟩
    exact ⟨p, ⟨hp, hinh⟩, hnm⟩

theorem sortDescending_pairwise (l : List String) :
    (sortDescending l).Pairwise (fun a b => b ≤ a) := by
  have htrans : ∀ a b c : String,
      (fun a b : String => decide (b ≤ a)) a b →
      (fun a b : String => decide (b ≤ a)) b c →
      (fun a b : String => decide (b ≤ a)) a c := by
    intro a b c hab hbc
    simp only [decide_eq_true_eq] at hab hbc ⊢
    exact le_trans hbc hab
  have htotal : ∀ a b : String,
      ((fun a b : String => decide (b ≤ a)) a b ||
        (fun a b : String => decide (b ≤ a)) b a) = true := by
    intro a b
    simp only [Bool.or_eq_true, decide_eq_true_eq]
    exact le_total b a
  have h := @List.sorted_mergeSort String (fun a b : String => decide (b ≤ a))
      htrans htotal l
  exact h.imp (fun hab => by simpa using hab)

/-! ### Claim theorems -/

/-- C1: for every definition set and every target name present in the
set, the `children` operation returns exactly the names of the records
whose `Inherits` string-equals the target name — direct one-level
children only, never transitive descendants.  (The set is keyed by
record name, as the loader builds it.) -/
theorem children_direct_descendants (defs : DefinitionSet)
    (name imagesDir : String) (current : ImageDefinition) (rev : Bool)
    (hname : name.length ≠ 0) (hdir : imagesDir.length ≠ 0)
    (hwell : WellKeyed defs) (hcur : lookupDef defs name = some current) :
    ∃ L, children name imagesDir (Except.ok defs) rev = Except.ok L ∧
      ∀ x, x ∈ L ↔ ∃ p ∈ defs, p.2.Inherits = name ∧ p.2.Name = x := by
  refine ⟨_, children_eq defs name imagesDir current rev hname hdir hcur, ?_⟩
  intro x
  exact mem_children defs name current rev x hwell hcur

/-- Witness for C1 on the spec's worked example: `children "A"` is
exactly the records naming `A` as parent, here `B` and `C`. -/
theorem children_direct_descendants_witness :
    ∃ L, children "A" "."
        (Except.ok [("A", ⟨"A", "base", true⟩), ("B", ⟨"B", "A", false⟩),
          ("C", ⟨"C", "A", false⟩)]) false = Except.ok L ∧
      ∀ x, x ∈ L ↔ ∃ p ∈ ([("A", ⟨"A", "base", true⟩), ("B", ⟨"B", "A", false⟩),
          ("C", ⟨"C", "A", false⟩)] : DefinitionSet), p.2.Inherits = "A" ∧ p.2.Name = x :=
  children_direct_descendants
    [("A", ⟨"A", "base", true⟩), ("B", ⟨"B", "A", false⟩), ("C", ⟨"C", "A", false⟩)]
    "A" "." ⟨"A", "base", true⟩ false (by decide) (by decide)
    (by unfold WellKeyed; decide) rfl

/-- C8: when the descending-sort flag (`--reverse`) is set, the child
names returned by `children` are in reverse (descending) lexicographic
order. -/
theorem children_reverse_sorted_descending (defs : DefinitionSet)
    (name imagesDir : String) (current : ImageDefinition)
    (hname : name.length ≠ 0) (hdir : imagesDir.length ≠ 0)
    (hcur : lookupDef defs name = some current) :
    ∃ L, children name imagesDir (Except.ok defs) true = Except.ok L ∧
      L.Pairwise (fun a b => b ≤ a) := by
  refine ⟨_, children_eq defs name imagesDir current true hname hdir hcur, ?_⟩
  rw [if_pos rfl]
  exact sortDescending_pairwise _

/-- Witness for C8: on the worked example, `children "A" --reverse`
returns a descending-sorted list. -/
theorem children_reverse_sorted_descending_witness :
    ∃ L, children "A" "."
        (Except.ok [("A", ⟨"A", "base", true⟩), ("B", ⟨"B", "A", false⟩),
          ("C", ⟨"C", "A", false⟩)]) true = Except.ok L ∧
      L.Pairwise (fun a b => b ≤ a) :=
  children_reverse_sorted_descending
    [("A", ⟨"A", "base", true⟩), ("B", ⟨"B", "A", false⟩), ("C", ⟨"C", "A", false⟩)]
    "A" "." ⟨"A", "base", true⟩ (by decide) (by decide) rfl

/-- C10: the `children` matching ignores the `InheritsExternal` flag: a
record whose parent is marked external but whose `Inherits` label
string-equals a local definition name is still listed among that
definition's children. -/
theorem children_includes_external_flagged_child (defs : DefinitionSet)
    (name imagesDir key : String) (current r : ImageDefinition) (rev : Bool)
    (hname : name.length ≠ 0) (hdir : imagesDir.length ≠ 0)
    (hwell : WellKeyed defs) (hcur : lookupDef defs name = some current)
    (hr : (key, r) ∈ defs) (_hrext : r.InheritsExternal = true)
    (hrinh : r.Inherits = name) :
    ∃ L, children name imagesDir (Except.ok defs) rev = Except.ok L ∧ r.Name ∈ L := by
  refine ⟨_, children_eq defs name imagesDir current rev hname hdir hcur, ?_⟩
  rw [mem_children defs name current rev r.Name hwell hcur]
  exact ⟨(key, r), hr, hrinh, rfl⟩

/-- Witness for C10: `X` has an external-flagged parent whose label is
the local name `A`; `children "A"` still lists `X`. -/
theorem children_includes_external_flagged_child_witness :
    ∃ L, children "A" "."
        (Except.ok [("A", ⟨"A", "base", true⟩), ("X", ⟨"X", "A", true⟩)]) false
        = Except.ok L ∧ (⟨"X", "A", true⟩ : ImageDefinition).Name ∈ L :=
  children_includes_external_flagged_child
    [("A", ⟨"A", "base", true⟩), ("X", ⟨"X", "A", true⟩)]
    "A" "." "X" ⟨"A", "base", true⟩ ⟨"X", "A", true⟩ false
    (by decide) (by decide) (by unfold WellKeyed; decide) rfl
    (by simp) rfl rfl

/-- C7 counterexample: with an empty target name — absent from the
(empty) loaded set — both `parents` and `children` fail with the
validation error "Name is required", not with the not-found error the
claim promises for every absent name. -/
theorem empty_name_validation_not_notFound :
    parents 1 "" "." (Except.ok ([] : DefinitionSet)) false false
        = some (Except.error (CmdError.validationError "Name is required")) ∧
    children "" "." (Except.ok ([] : DefinitionSet)) false
        = Except.error (CmdError.validationError "Name is required") ∧
    (CmdError.validationError "Name is required" ≠ CmdError.notFoundError "") := by
  refine ⟨rfl, rfl, by decide⟩

/-- C7 amended: for a nonempty name absent from the loaded set (and a
nonempty images directory), `parents` fails with the not-found error
naming it, and so does `children`; in either case no result lines are
produced (the operations return the error instead of an `ok` list of
printed lines). -/
theorem parents_children_notFound (defs : DefinitionSet)
    (name imagesDir : String) (excl rev : Bool) (fuel : Nat)
    (hname : name.length ≠ 0) (hdir : imagesDir.length ≠ 0)
    (habs : lookupDef defs name = none) :
    parents fuel name imagesDir (Except.ok defs) excl rev
        = some (Except.error (CmdError.notFoundError name)) ∧
    children name imagesDir (Except.ok defs) rev
        = Except.error (CmdError.notFoundError name) := by
  constructor
  · rw [parents, if_neg hname, if_neg hdir, habs]
  · rw [children, if_neg hname, if_neg hdir, habs]

/-- Witness for the amended C7: looking up `missing` in the worked
example set yields the not-found error from both operations. -/
theorem parents_children_notFound_witness :
    parents 3 "missing" "."
        (Except.ok [("A", ⟨"A", "base", true⟩), ("B", ⟨"B", "A", false⟩)]) false false
        = some (Except.error (CmdError.notFoundError "missing")) ∧
    children "missing" "."
        (Except.ok [("A", ⟨"A", "base", true⟩), ("B", ⟨"B", "A", false⟩)]) false
        = Except.error (CmdError.notFoundError "missing") :=
  parents_children_notFound
    [("A", ⟨"A", "base", true⟩), ("B", ⟨"B", "A", false⟩)]
    "missing" "." false false 3 (by decide) (by decide) rfl

/-- C9 (utils.Reverse modelled from the spec, its source being outside
`src/`): the reversal applied by the `--reverse` flag of `parents` is an
involution — applying it twice returns the original ordering. -/
theorem reverseNames_involution (l : List String) :
    reverseNames (reverseNames l) = l :=
  List.reverse_reverse l

/-- C4 (code bug): when the delegated loader call of `inspect` fails,
the command still prints the (zero-valued or partial) record's name
before returning the error — partial output is produced on error,
contradicting the spec's "no partial-result output". -/
theorem inspect_prints_despite_error (name imagesDir : String)
    (d : ImageDefinition) (e : CmdError)
    (hname : name.length ≠ 0) (hdir : imagesDir.length ≠ 0) :
    inspect name imagesDir (d, some e) = ([d.Name], some e) ∧
    (inspect name imagesDir (d, some e)).1 ≠ [] := by
  rw [inspect, if_neg hname, if_neg hdir]
  exact ⟨rfl, by simp⟩

/-- Witness for C4: with a failing loader returning the Go zero value,
`inspect` prints one (empty) line and returns the load error. -/
theorem inspect_prints_despite_error_witness :
    inspect "x" "." (zeroDef, some (CmdError.loadError "directory unreadable"))
        = ([zeroDef.Name], some (CmdError.loadError "directory unreadable")) ∧
    (inspect "x" "." (zeroDef, some (CmdError.loadError "directory unreadable"))).1 ≠ [] :=
  inspect_prints_despite_error "x" "." zeroDef (CmdError.loadError "directory unreadable")
    (by decide) (by decide)

/-- C6: the chain walk of `parents` never terminates when the parent
chain from the start record is cyclic (the loop has not finished at any
fuel), and under the precondition that the chain is acyclic and every
non-external parent reference resolves to a record in the set, it
terminates within a number of iterations equal to the set size. -/
theorem parents_cyclic_diverges_acyclic_terminates (defs : DefinitionSet)
    (name imagesDir : String) (start : ImageDefinition) (excl rev : Bool)
    (hname : name.length ≠ 0) (hdir : imagesDir.length ≠ 0)
    (hstart : lookupDef defs name = some start) :
    (CyclicFrom defs start →
      ∀ fuel, parents fuel name imagesDir (Except.ok defs) excl rev = none) ∧
    (AcyclicFrom defs start → Resolvable defs →
      (parents defs.length name imagesDir (Except.ok defs) excl rev).isSome) := by
  constructor
  · intro hcyc fuel
    have hnone := parentsLoop_none defs excl fuel start []
      (not_external_of_cyclic defs start hcyc)
    rw [parents, if_neg hname, if_neg hdir]
    simp only [hstart, hnone]
  · intro hacyc hres
    obtain ⟨k, hk, hext⟩ :=
      exists_external defs start hres (lookupDef_mem hstart) hacyc
    have hsome := parentsLoop_isSome defs excl defs.length start [] ⟨k, hk, hext⟩
    obtain ⟨L, hL⟩ := Option.isSome_iff_exists.mp hsome
    rw [parents, if_neg hname, if_neg hdir]
    simp only [hstart, hL]
    rfl

/-- Witness for C6: applied on a two-record cycle (`A` inherits `B`,
`B` inherits `A`), where the walk has not finished after three
iterations, and on the spec's acyclic two-record example, where it
finishes within two iterations (the set size). -/
theorem parents_cyclic_diverges_acyclic_terminates_witness :
    parents 3 "A" "."
        (Except.ok [("A", ⟨"A", "B", false⟩), ("B", ⟨"B", "A", false⟩)]) false false
      = none ∧
    (parents 2 "B" "."
        (Except.ok [("A", ⟨"A", "base", true⟩), ("B", ⟨"B", "A", false⟩)]) false false).isSome := by
  constructor
  · refine (parents_cyclic_diverges_acyclic_terminates
      [("A", ⟨"A", "B", false⟩), ("B", ⟨"B", "A", false⟩)] "A" "."
      ⟨"A", "B", false⟩ false false (by decide) (by decide) rfl).1 ?_ 3
    refine ⟨0, 2, by omega, by decide, ?_⟩
    intro t ht
    interval_cases t <;> decide
  · refine (parents_cyclic_diverges_acyclic_terminates
      [("A", ⟨"A", "base", true⟩), ("B", ⟨"B", "A", false⟩)] "B" "."
      ⟨"B", "A", false⟩ false false (by decide) (by decide) rfl).2 ?_ ?_
    · intro i j hij hpre
      rcases Nat.lt_or_ge j 2 with hj | hj
      · interval_cases j
        · omega
        · interval_cases i
          decide
      · have h1 := hpre 1 (by omega)
        have : (visit [("A", ⟨"A", "base", true⟩), ("B", ⟨"B", "A", false⟩)]
            (⟨"B", "A", false⟩ : ImageDefinition) 1).InheritsExternal = true := by decide
        rw [this] at h1
        cases h1
    · intro p hp hpext
      simp only [List.mem_cons, List.not_mem_nil, or_false] at hp
      rcases hp with h | h <;> subst h
      · exact absurd hpext (by decide)
      · decide

/-- C2: for an acyclic well-formed set, `parents` with
excludeExternal = false returns a chain whose length equals the depth of
the start name from its external root, inclusive of the root label; in
particular, on records `A(parentRef="base", external=true)` and
`B(parentRef="A", external=false)`, `parents "B"` returns
`["A", "base"]`. -/
theorem parents_chain_length_eq_depth (defs : DefinitionSet)
    (name imagesDir : String) (start : ImageDefinition)
    (hname : name.length ≠ 0) (hdir : imagesDir.length ≠ 0)
    (hstart : lookupDef defs name = some start)
    (hacyc : AcyclicFrom defs start) (hres : Resolvable defs) :
    (∃ L d, parents defs.length name imagesDir (Except.ok defs) false false
        = some (Except.ok L) ∧ HasDepth defs start d ∧ L.length = d) ∧
    parents 2 "B" "."
        (Except.ok [("A", ⟨"A", "base", true⟩), ("B", ⟨"B", "A", false⟩)]) false false
      = some (Except.ok ["A", "base"]) := by
  refine ⟨?_, rfl⟩
  obtain ⟨k0, hk0, hext0⟩ :=
    exists_external defs start hres (lookupDef_mem hstart) hacyc
  have hsome := parentsLoop_isSome defs false defs.length start [] ⟨k0, hk0, hext0⟩
  obtain ⟨L, hL⟩ := Option.isSome_iff_exists.mp hsome
  obtain ⟨k, chain, hk, hext, hmin, hlen, _, hLeq, _⟩ :=
    parentsLoop_spec defs _ _ _ _ hL
  refine ⟨L, k + 1, ?_, ⟨k, rfl, hext, hmin⟩, ?_⟩
  · rw [parents, if_neg hname, if_neg hdir]
    simp only [hstart, hL]
    rfl
  · rw [hLeq]
    simp [hlen]

/-- Witness for C2 on the spec's two-record example: `B` has depth 2
and the returned chain `["A", "base"]` has length 2. -/
theorem parents_chain_length_eq_depth_witness :
    (∃ L d, parents 2 "B" "."
        (Except.ok [("A", ⟨"A", "base", true⟩), ("B", ⟨"B", "A", false⟩)]) false false
        = some (Except.ok L) ∧
      HasDepth [("A", ⟨"A", "base", true⟩), ("B", ⟨"B", "A", false⟩)]
        ⟨"B", "A", false⟩ d ∧ L.length = d) ∧
    parents 2 "B" "."
        (Except.ok [("A", ⟨"A", "base", true⟩), ("B", ⟨"B", "A", false⟩)]) false false
      = some (Except.ok ["A", "base"]) :=
  parents_chain_length_eq_depth
    [("A", ⟨"A", "base", true⟩), ("B", ⟨"B", "A", false⟩)] "B" "."
    ⟨"B", "A", false⟩ (by decide) (by decide) rfl
    (by
      intro i j hij hpre
      rcases Nat.lt_or_ge j 2 with hj | hj
      · interval_cases j
        · omega
        · interval_cases i
          decide
      · have h1 := hpre 1 (by omega)
        have h2 : (visit [("A", ⟨"A", "base", true⟩), ("B", ⟨"B", "A", false⟩)]
            (⟨"B", "A", false⟩ : ImageDefinition) 1).InheritsExternal = true := by decide
        rw [h2] at h1
        cases h1)
    (by
      intro p hp hpext
      simp only [List.mem_cons, List.not_mem_nil, or_false] at hp
      rcases hp with h | h <;> subst h
      · exact absurd hpext (by decide)
      · decide)

/-- C5: for an acyclic well-formed set, the result of `parents` with
excludeExternal = true never contains the external root label, and it
equals the excludeExternal = false result with its last element (the
root label) removed. -/
theorem parents_exclude_external_drops_root (defs : DefinitionSet)
    (name imagesDir : String) (start : ImageDefinition)
    (hname : name.length ≠ 0) (hdir : imagesDir.length ≠ 0)
    (hstart : lookupDef defs name = some start)
    (hacyc : AcyclicFrom defs start) (hres : Resolvable defs)
    (hwell : WellKeyed defs) (hout : ExternalRefsOutside defs) :
    ∃ chain root,
      parents defs.length name imagesDir (Except.ok defs) false false
        = some (Except.ok (chain ++ [root])) ∧
      parents defs.length name imagesDir (Except.ok defs) true false
        = some (Except.ok chain) ∧
      chain = (chain ++ [root]).dropLast ∧
      root ∉ chain := by
  obtain ⟨k0, hk0, hext0⟩ :=
    exists_external defs start hres (lookupDef_mem hstart) hacyc
  have hsome := parentsLoop_isSome defs false defs.length start [] ⟨k0, hk0, hext0⟩
  obtain ⟨L, hL⟩ := Option.isSome_iff_exists.mp hsome
  obtain ⟨k, chain, hk, hext, hmin, hlen, hnames, hLeq, htrue⟩ :=
    parentsLoop_spec defs _ _ _ _ hL
  refine ⟨chain, (visit defs start k).Inherits, ?_, ?_,
    List.dropLast_concat.symm, ?_⟩
  · rw [parents, if_neg hname, if_neg hdir]
    simp only [hstart, hL]
    rw [hLeq]
    simp
  · rw [parents, if_neg hname, if_neg hdir]
    simp only [hstart, htrue]
    simp
  · intro hroot
    obtain ⟨t, ht, hteq⟩ := hnames _ hroot
    have hmem := visit_mem defs start hres (lookupDef_mem hstart) (t + 1)
      (fun j hj => hmin j (by omega))
    obtain ⟨p, hp, hpsnd⟩ := List.mem_map.mp hmem
    have hkey : p.1 = (visit defs start k).Inherits := by
      rw [← hwell p hp, hpsnd, ← hteq]
    have hsome2 : (lookupDef defs ((visit defs start k).Inherits)).isSome := by
      have hpair : ((visit defs start k).Inherits, p.2) ∈ defs := by
        rw [← hkey]
        exact hp
      exact lookupDef_isSome_of_mem hpair
    have hmemk := visit_mem defs start hres (lookupDef_mem hstart) k
      (fun j hj => hmin j hj)
    obtain ⟨q, hq, hqsnd⟩ := List.mem_map.mp hmemk
    have hnone := hout q hq (by rw [hqsnd]; exact hext)
    rw [hqsnd] at hnone
    rw [hnone] at hsome2
    cases hsome2

/-- Witness for C5 on the spec's two-record example:
`parents "B" --exclude-external` returns `["A"]`, the full chain
`["A", "base"]` with its last element removed, and `base` is not in it. -/
theorem parents_exclude_external_drops_root_witness :
    ∃ chain root,
      parents 2 "B" "."
          (Except.ok [("A", ⟨"A", "base", true⟩), ("B", ⟨"B", "A", false⟩)]) false false
        = some (Except.ok (chain ++ [root])) ∧
      parents 2 "B" "."
          (Except.ok [("A", ⟨"A", "base", true⟩), ("B", ⟨"B", "A", false⟩)]) true false
        = some (Except.ok chain) ∧
      chain = (chain ++ [root]).dropLast ∧
      root ∉ chain :=
  parents_exclude_external_drops_root
    [("A", ⟨"A", "base", true⟩), ("B", ⟨"B", "A", false⟩)] "B" "."
    ⟨"B", "A", false⟩ (by decide) (by decide) rfl
    (by
      intro i j hij hpre
      rcases Nat.lt_or_ge j 2 with hj | hj
      · interval_cases j
        · omega
        · interval_cases i
          decide
      · have h1 := hpre 1 (by omega)
        have h2 : (visit [("A", ⟨"A", "base", true⟩), ("B", ⟨"B", "A", false⟩)]
            (⟨"B", "A", false⟩ : ImageDefinition) 1).InheritsExternal = true := by decide
        rw [h2] at h1
        cases h1)
    (by
      intro p hp hpext
      simp only [List.mem_cons, List.not_mem_nil, or_false] at hp
      rcases hp with h | h <;> subst h
      · exact absurd hpext (by decide)
      · decide)
    (by unfold WellKeyed; decide)
    (by
      intro p hp hpext
      simp only [List.mem_cons, List.not_mem_nil, or_false] at hp
      rcases hp with h | h <;> subst h
      · rfl
      · exact absurd hpext (by decide))

/-- C3: the forest built by `tree` has exactly as many top-level nodes
as there are distinct `Inherits` labels among records whose parent is
external, and the immediate children of each top-level node are exactly
the records with an external parent whose `Inherits` equals that node's
label (the deduplication `utils.RemoveDuplicates` is modelled from the
spec, its source being outside `src/`). -/
theorem tree_roots_and_children (defs : DefinitionSet) (imagesDir : String)
    (fuel : Nat) (hdir : imagesDir.length ≠ 0) :
    ∃ root, tree imagesDir (Except.ok defs) fuel = Except.ok root ∧
      root.Items.length =
        ((defs.filter (fun p => p.2.InheritsExternal)).map
          (fun p => p.2.Inherits)).toFinset.card ∧
      ∀ node ∈ root.Items,
        ∀ x, (∃ c ∈ node.Items, c.Name = x) ↔
          ∃ p ∈ defs, p.2.InheritsExternal = true ∧
            p.2.Inherits = node.Name ∧ p.2.Name = x := by
  refine ⟨_, by rw [tree, if_neg hdir], ?_, ?_⟩
  · simp [length_removeDuplicates]
  · intro node hnode x
    simp only [List.mem_map] at hnode
    obtain ⟨label, hlabel, hnodeEq⟩ := hnode
    subst hnodeEq
    constructor
    · rintro ⟨c, hc, hcx⟩
      rw [List.mem_map] at hc
      obtain ⟨p, hpf, hcEq⟩ := hc
      rw [List.mem_filter] at hpf
      obtain ⟨hp, hcond⟩ := hpf
      rw [Bool.and_eq_true, beq_iff_eq] at hcond
      rw [← hcEq] at hcx
      exact ⟨p, hp, hcond.1, hcond.2, hcx⟩
    · rintro ⟨p, hp, hpext, hpinh, hpx⟩
      refine ⟨GTStructure.mk p.2.Name (buildTreeRecursively defs fuel p.2), ?_, hpx⟩
      rw [List.mem_map]
      refine ⟨p, ?_, rfl⟩
      rw [List.mem_filter]
      refine ⟨hp, ?_⟩
      rw [Bool.and_eq_true, beq_iff_eq]
      exact ⟨hpext, hpinh⟩

/-- Witness for C3 on the spec's worked example: one root (`base`),
whose immediate children are exactly the external-parent records that
reference `base`. -/
theorem tree_roots_and_children_witness :
    ∃ root, tree "."
        (Except.ok [("A", ⟨"A", "base", true⟩), ("B", ⟨"B", "A", false⟩),
          ("C", ⟨"C", "A", false⟩)]) 2 = Except.ok root ∧
      root.Items.length =
        (((([("A", ⟨"A", "base", true⟩), ("B", ⟨"B", "A", false⟩),
            ("C", ⟨"C", "A", false⟩)] : DefinitionSet).filter
          (fun p => p.2.InheritsExternal)).map (fun p => p.2.Inherits)).toFinset).card ∧
      ∀ node ∈ root.Items,
        ∀ x, (∃ c ∈ node.Items, c.Name = x) ↔
          ∃ p ∈ ([("A", ⟨"A", "base", true⟩), ("B", ⟨"B", "A", false⟩),
              ("C", ⟨"C", "A", false⟩)] : DefinitionSet),
            p.2.InheritsExternal = true ∧ p.2.Inherits = node.Name ∧ p.2.Name = x :=
  tree_roots_and_children
    [("A", ⟨"A", "base", true⟩), ("B", ⟨"B", "A", false⟩), ("C", ⟨"C", "A", false⟩)]
    "." 2 (by decide)

end Darch
